import Mathlib

/-!
Shallow embedding of the `linker-sections` crate
(`src/linker-sections/src/lib.rs`).

Memory is byte-addressed: a memory state is a function from byte address
(`Nat`) to stored byte value (`Nat`).  The target is a 32-bit machine
(cortex-m), so `usize` casts are modelled as reduction modulo `2 ^ 32`.

`section_init dst end_ src` is the copy-and-validate primitive
(lib.rs lines 273-301).  The `asserts : Bool` parameter models the
build-time `asserts` cargo feature (`#[cfg(feature = "asserts")]`): the
assertion blocks are compiled in exactly when it is `true`.  A failed
`assert!` aborts the process before touching memory; this is modelled by
returning `none`.  A normal return is `some` of the new memory state.
-/

namespace LinkerSections

/-- `core::ptr::copy_nonoverlapping::<u32>(src, dst, len)` viewed on byte
memory: copies `len` 32-bit words, i.e. `4 * len` bytes, from the source
range `[src, src + 4*len)` to the destination range `[dst, dst + 4*len)`.
Its contract requires the two ranges to be disjoint, so the source is read
from the pre-state. -/
def copy_nonoverlapping (src dst len : Nat) (mem : Nat → Nat) : Nat → Nat :=
  fun a => if dst ≤ a ∧ a < dst + 4 * len then mem (src + (a - dst)) else mem a

/-- `end.offset_from(dst)` for `*const u32` pointers: the pointer distance
in units of `u32`, i.e. the byte distance divided by 4. -/
def offset_from (end_ dst : Nat) : Int := ((end_ : Int) - (dst : Int)) / 4

/-- The `as usize` cast of an `isize` value on a 32-bit target:
reduction modulo `2 ^ 32`. -/
def usize_of_int (i : Int) : Nat := (i % ((2 : Int) ^ 32)).toNat

/-- `section_init(dst, end, src)` from lib.rs lines 273-301.

With `asserts = true` the two `#[cfg(feature = "asserts")]` blocks run:
first `assert!(dst <= end)` and the three 4-byte alignment asserts, then —
after `len` has been computed — the overlap assert
`assert!(src > dst + len || src + len < dst)` (note: `src` and `dst` are
byte addresses while `len` came from `offset_from` and counts words).
A failed assert aborts (`none`) before the copy.

`len = end.offset_from(dst) as usize` counts `u32` words; the final
`copy_nonoverlapping(src, dst, len)` copies `len` words. -/
def section_init (asserts : Bool) (dst end_ src : Nat) (mem : Nat → Nat) :
    Option (Nat → Nat) :=
  if asserts = true ∧
      ¬(dst ≤ end_ ∧ src % 4 = 0 ∧ dst % 4 = 0 ∧ end_ % 4 = 0) then none
  else
    let len := usize_of_int (offset_from end_ dst)
    if asserts = true ∧ ¬(src > dst + len ∨ src + len < dst) then none
    else some (copy_nonoverlapping src dst len mem)

/-- A symbol-naming convention: the three prefixes `($beg, $end, $src)` a
region name is combined with to form its start, end and load-source linker
symbols (the macro metavariables of `section_init_with_prefixes!`). -/
structure Convention where
  beg : String
  end_ : String
  src : String

/-- The linker-symbol environment: the address each external symbol is
bound to at link time. -/
def SymEnv : Type := String → Nat

/-- The per-region initializer generated by `section_init_with_prefixes!`
(lib.rs lines 229-250): resolve the three symbols `$beg ++ name`,
`$end ++ name`, `$src ++ name` to addresses and call
`section_init(dst, end, src)` on them. -/
def section_init_with_prefixes (asserts : Bool) (env : SymEnv)
    (name : String) (c : Convention) (mem : Nat → Nat) : Option (Nat → Nat) :=
  section_init asserts (env (c.beg ++ name)) (env (c.end_ ++ name))
    (env (c.src ++ name)) mem

/-- The aggregator generated by `init_sections_with_prefixes!`
(lib.rs lines 216-225): `__init_sections` calls the generated per-region
initializer of every listed region, one after the other, in exactly the
order the regions were listed, then returns.  An aborted assert stops the
whole process (`none`). -/
def init_sections_with_prefixes (asserts : Bool) (env : SymEnv) :
    List (String × Convention) → (Nat → Nat) → Option (Nat → Nat)
  | [], mem => some mem
  | r :: rs, mem =>
    match section_init_with_prefixes asserts env r.1 r.2 mem with
    | none => none
    | some mem' => init_sections_with_prefixes asserts env rs mem'

/-- The default convention of `init_sections!`: prefixes `__s`, `__e`,
`__si`. -/
def default_convention : Convention := ⟨"__s", "__e", "__si"⟩

/-- `init_sections!` (lib.rs lines 158-162): expands to
`init_sections_with_prefixes!` with every section name paired with the
prefixes `(__s, __e, __si)`. -/
def init_sections (asserts : Bool) (env : SymEnv) (names : List String)
    (mem : Nat → Nat) : Option (Nat → Nat) :=
  init_sections_with_prefixes asserts env
    (names.map (fun n => (n, default_convention))) mem

/-- Modelled from the spec (section 4.4 and section 6): the shorthand as the
spec describes it — for each region name, directly resolve the symbols
`__s ++ name`, `__e ++ name`, `__si ++ name` and initialize that region, in
listed order.  Stated independently of `init_sections` so the two can be
compared. -/
def init_sections_spec_shorthand (asserts : Bool) (env : SymEnv) :
    List String → (Nat → Nat) → Option (Nat → Nat)
  | [], mem => some mem
  | n :: ns, mem =>
    match section_init asserts (env ("__s" ++ n)) (env ("__e" ++ n))
        (env ("__si" ++ n)) mem with
    | none => none
    | some mem' => init_sections_spec_shorthand asserts env ns mem'

/-! Helper lemmas about `section_init`. -/

/-- Whenever `section_init` returns normally, the memory it returns is the
word-granular copy with `len = end.offset_from(dst) as usize`. -/
theorem section_init_some_eq {a : Bool} {d e s : Nat} {m m' : Nat → Nat}
    (h : section_init a d e s m = some m') :
    m' = copy_nonoverlapping s d (usize_of_int (offset_from e d)) m := by
  simp only [section_init] at h
  split at h
  · exact absurd h (by simp)
  · split at h
    · exact absurd h (by simp)
    · exact (Option.some_inj.mp h).symm

/-- If the asserting build returns normally, the ordering and the three
alignment assertions all passed. -/
theorem section_init_asserts_pass {d e s : Nat} {m m' : Nat → Nat}
    (h : section_init true d e s m = some m') :
    d ≤ e ∧ s % 4 = 0 ∧ d % 4 = 0 ∧ e % 4 = 0 := by
  simp only [section_init] at h
  by_cases hc : d ≤ e ∧ s % 4 = 0 ∧ d % 4 = 0 ∧ e % 4 = 0
  · exact hc
  · simp [hc] at h

/-- For `dst ≤ end` within the 32-bit address space, the computed word
count is exactly the byte distance divided by 4. -/
theorem usize_len_eq {d e : Nat} (hde : d ≤ e) (hb : e < 2 ^ 32) :
    usize_of_int (offset_from e d) = (e - d) / 4 := by
  unfold usize_of_int offset_from
  omega

/-- A zero-length copy changes nothing. -/
theorem copy_nonoverlapping_zero (s d : Nat) (mem : Nat → Nat) :
    copy_nonoverlapping s d 0 mem = mem := by
  funext a
  unfold copy_nonoverlapping
  rw [if_neg (by omega)]

/-- Without the `asserts` feature, `section_init` is the bare copy. -/
theorem section_init_false_eq (d e s : Nat) (mem : Nat → Nat) :
    section_init false d e s mem =
      some (copy_nonoverlapping s d (usize_of_int (offset_from e d)) mem) := by
  simp only [section_init]
  rw [if_neg (by simp), if_neg (by simp)]

/-- The assertions of `section_init` do not look at memory: if one run
returns normally, a run on any other memory state returns the copy of that
state. -/
theorem section_init_run_congr {a : Bool} {d e s : Nat} {m m' : Nat → Nat}
    (h : section_init a d e s m = some m') (m2 : Nat → Nat) :
    section_init a d e s m2 =
      some (copy_nonoverlapping s d (usize_of_int (offset_from e d)) m2) := by
  simp only [section_init] at h ⊢
  split at h
  · exact absurd h (by simp)
  · rename_i h1
    rw [if_neg h1]
    split at h
    · exact absurd h (by simp)
    · rename_i h2
      rw [if_neg h2]

/-! The claims. -/

/-- C1: for every region with `dest_start ≤ dest_end`, all three addresses
4-byte aligned (hence byte length a multiple of 4) and source range disjoint
from destination range, after `section_init(dest_start, dest_end, src_start)`
returns, every byte of the destination range equals the byte the source
range held at the time of the call. -/
theorem section_init_copies_source_bytes (asserts : Bool) (d e s : Nat)
    (mem mem' : Nat → Nat)
    (hde : d ≤ e) (hda : d % 4 = 0) (hea : e % 4 = 0) (hsa : s % 4 = 0)
    (hbound : e < 2 ^ 32)
    (hdisj : s + (e - d) ≤ d ∨ d + (e - d) ≤ s)
    (hrun : section_init asserts d e s mem = some mem') :
    ∀ i, i < e - d → mem' (d + i) = mem (s + i) := by
  intro i hi
  have h4 : 4 ∣ (e - d) :=
    Nat.dvd_sub' (Nat.dvd_of_mod_eq_zero hea) (Nat.dvd_of_mod_eq_zero hda)
  have hm := section_init_some_eq hrun
  subst hm
  unfold copy_nonoverlapping
  rw [usize_len_eq hde hbound]
  have hin : d + i < d + 4 * ((e - d) / 4) := by
    rw [Nat.mul_div_cancel' h4]; omega
  rw [if_pos ⟨Nat.le_add_right d i, hin⟩]
  congr 1
  omega

/-- C1 witness: a concrete aligned, disjoint region (dst = 0, end = 4,
src = 8) on the identity memory; byte 1 of the destination ends up holding
the source byte at address 9. -/
theorem section_init_copies_source_bytes_witness :
    copy_nonoverlapping 8 0 1 (fun a => a) (0 + 1) = (fun a => a) (8 + 1) :=
  section_init_copies_source_bytes false 0 4 8 (fun a => a)
    (copy_nonoverlapping 8 0 1 (fun a => a)) (by decide) (by decide)
    (by decide) (by decide) (by decide) (by decide) rfl 1 (by decide)

/-- C2: the code at the failing input dst = 0, end = 16, src = 8.  The byte
ranges `[0, 16)` and `[8, 24)` overlap (first conjunct), yet the asserting
build does not abort: the overlap assertion compares the byte addresses
against `len = 4`, the length in words, so `src > dst + len` (8 > 4) holds
and the copy proceeds (second conjunct). -/
theorem overlap_assert_misses_byte_overlap :
    (8 < 0 + (16 - 0) ∧ 0 < 8 + (16 - 0)) ∧
      section_init true 0 16 8 (fun a => a) =
        some (copy_nonoverlapping 8 0 4 (fun a => a)) := by
  exact ⟨by decide, rfl⟩

/-- C4: with the `asserts` feature enabled, a misaligned `dst`, `src` or
`end`, or `dst > end`, makes `section_init` abort fatally (modelled as
`none`) before any memory is written. -/
theorem asserts_abort_on_invalid (d e s : Nat) (mem : Nat → Nat)
    (hbad : d % 4 ≠ 0 ∨ s % 4 ≠ 0 ∨ e % 4 ≠ 0 ∨ e < d) :
    section_init true d e s mem = none := by
  unfold section_init
  rw [if_pos ⟨rfl, by omega⟩]

/-- C4 witness: dst = 1 is misaligned, and the asserting build aborts on
the concrete call `section_init(1, 4, 0)`. -/
theorem asserts_abort_on_invalid_witness :
    section_init true 1 4 0 (fun a => a) = none :=
  asserts_abort_on_invalid 1 4 0 (fun a => a) (Or.inl (by decide))

/-- C5 counterexample: the fully aligned empty region
`dst = end = src = 0` does not return normally in the asserting build: the
overlap assertion `src > dst + len || src + len < dst` with `len = 0`
demands `src ≠ dst` and aborts. -/
theorem empty_region_aborts_under_asserts :
    (section_init true 0 0 0 (fun a => a)).isSome = false := by decide

/-- C5 amended: with the `asserts` feature disabled, every call with
`dest_start = dest_end` is a no-op: it returns normally and leaves every
memory location unchanged. -/
theorem empty_region_noop_without_asserts (d s : Nat) (mem : Nat → Nat) :
    section_init false d d s mem = some mem := by
  simp only [section_init]
  rw [if_neg (by simp), if_neg (by simp)]
  have hlen : usize_of_int (offset_from d d) = 0 := by
    unfold usize_of_int offset_from; omega
  rw [hlen, copy_nonoverlapping_zero]

/-- C8: with the `asserts` feature disabled, `section_init` performs no
check at all: on every input it returns normally, with the memory produced
by computing `len = end.offset_from(dst) as usize` and copying `len` words
— it never aborts and never reports an error. -/
theorem no_asserts_never_aborts (d e s : Nat) (mem : Nat → Nat) :
    section_init false d e s mem =
      some (copy_nonoverlapping s d (usize_of_int (offset_from e d)) mem) := by
  simp only [section_init]
  rw [if_neg (by simp), if_neg (by simp)]

/-- C9: whenever the asserting build returns normally, the byte distance
`end - dst` is an exact multiple of 4, the computed length is exactly
`(end - dst) / 4` complete words with no partial trailing word
(`4 * ((end - dst) / 4) = end - dst`), and the resulting memory is the
copy of exactly that many words. -/
theorem validated_length_whole_words (d e s : Nat) (mem mem' : Nat → Nat)
    (hbound : e < 2 ^ 32)
    (hrun : section_init true d e s mem = some mem') :
    4 ∣ (e - d) ∧
      usize_of_int (offset_from e d) = (e - d) / 4 ∧
      4 * ((e - d) / 4) = e - d ∧
      mem' = copy_nonoverlapping s d ((e - d) / 4) mem := by
  obtain ⟨hde, hsa, hda, hea⟩ := section_init_asserts_pass hrun
  have h4 : 4 ∣ (e - d) :=
    Nat.dvd_sub' (Nat.dvd_of_mod_eq_zero hea) (Nat.dvd_of_mod_eq_zero hda)
  have hlen := usize_len_eq hde hbound
  refine ⟨h4, hlen, Nat.mul_div_cancel' h4, ?_⟩
  rw [← hlen]
  exact section_init_some_eq hrun

/-- C9 witness: the asserting build passes on the concrete aligned region
(dst = 0, end = 4, src = 8) and transfers exactly one complete word. -/
theorem validated_length_whole_words_witness :
    4 ∣ (4 - 0) ∧
      usize_of_int (offset_from 4 0) = (4 - 0) / 4 ∧
      4 * ((4 - 0) / 4) = 4 - 0 ∧
      copy_nonoverlapping 8 0 1 (fun a => a) =
        copy_nonoverlapping 8 0 ((4 - 0) / 4) (fun a => a) :=
  validated_length_whole_words 0 4 8 (fun a => a)
    (copy_nonoverlapping 8 0 1 (fun a => a)) (by decide) rfl

/-- C6: under the alignment, ordering and non-overlap preconditions, the
write frame of `section_init` is the destination range and the read frame
is the source range: every location outside `[dst, dst + (end - dst))`
keeps its pre-call value, and the bytes written into the destination range
depend only on the pre-call contents of `[src, src + (end - dst))` — two
runs from memories that agree on the source range agree on the whole
destination range. -/
theorem section_init_frame (asserts : Bool) (d e s : Nat)
    (mem mem2 mem' mem2' : Nat → Nat)
    (hde : d ≤ e) (hda : d % 4 = 0) (hea : e % 4 = 0) (hsa : s % 4 = 0)
    (hbound : e < 2 ^ 32)
    (hdisj : s + (e - d) ≤ d ∨ d + (e - d) ≤ s)
    (hrun : section_init asserts d e s mem = some mem')
    (hrun2 : section_init asserts d e s mem2 = some mem2')
    (hagree : ∀ i, i < e - d → mem (s + i) = mem2 (s + i)) :
    (∀ a, a < d ∨ d + (e - d) ≤ a → mem' a = mem a) ∧
      (∀ a, d ≤ a → a < d + (e - d) → mem' a = mem2' a) := by
  have h4 : 4 ∣ (e - d) :=
    Nat.dvd_sub' (Nat.dvd_of_mod_eq_zero hea) (Nat.dvd_of_mod_eq_zero hda)
  have hlen : usize_of_int (offset_from e d) = (e - d) / 4 :=
    usize_len_eq hde hbound
  have hmul : 4 * ((e - d) / 4) = e - d := Nat.mul_div_cancel' h4
  have hm := section_init_some_eq hrun
  have hm2 := section_init_some_eq hrun2
  subst hm hm2
  constructor
  · intro a ha
    unfold copy_nonoverlapping
    rw [hlen, if_neg (by omega)]
  · intro a ha1 ha2
    unfold copy_nonoverlapping
    rw [hlen]
    rw [if_pos (by omega), if_pos (by omega)]
    exact hagree (a - d) (by omega)

/-- C6 witness: the concrete region (dst = 0, end = 4, src = 8) run on the
identity memory and on a memory that agrees with it only on the source
range `[8, 12)`: address 5 (outside the destination) is untouched, and the
two runs produce the same byte at destination address 2. -/
theorem section_init_frame_witness :
    copy_nonoverlapping 8 0 1 (fun a => a) 5 = (fun a => a) 5 ∧
      copy_nonoverlapping 8 0 1 (fun a => a) 2 =
        copy_nonoverlapping 8 0 1 (fun a => if 8 ≤ a ∧ a < 12 then a else 0) 2 := by
  have h := section_init_frame false 0 4 8 (fun a => a)
    (fun a => if 8 ≤ a ∧ a < 12 then a else 0)
    (copy_nonoverlapping 8 0 1 (fun a => a))
    (copy_nonoverlapping 8 0 1 (fun a => if 8 ≤ a ∧ a < 12 then a else 0))
    (by decide) (by decide) (by decide) (by decide) (by decide) (by decide)
    rfl rfl (by decide)
  exact ⟨h.1 5 (by omega), h.2 2 (by omega) (by omega)⟩

/-- C10: under the preconditions, `section_init` is idempotent: a second
run on the memory produced by the first returns that same memory, because
the source range is disjoint from the destination range and hence
unchanged by the first run. -/
theorem section_init_idempotent (asserts : Bool) (d e s : Nat)
    (mem mem' : Nat → Nat)
    (hde : d ≤ e) (hda : d % 4 = 0) (hea : e % 4 = 0) (hsa : s % 4 = 0)
    (hbound : e < 2 ^ 32)
    (hdisj : s + (e - d) ≤ d ∨ d + (e - d) ≤ s)
    (hrun : section_init asserts d e s mem = some mem') :
    section_init asserts d e s mem' = some mem' := by
  have h4 : 4 ∣ (e - d) :=
    Nat.dvd_sub' (Nat.dvd_of_mod_eq_zero hea) (Nat.dvd_of_mod_eq_zero hda)
  have hlen : usize_of_int (offset_from e d) = (e - d) / 4 :=
    usize_len_eq hde hbound
  have hmul : 4 * ((e - d) / 4) = e - d := Nat.mul_div_cancel' h4
  have hm := section_init_some_eq hrun
  have hcopy : copy_nonoverlapping s d (usize_of_int (offset_from e d)) mem'
      = mem' := by
    funext a
    by_cases hin : d ≤ a ∧ a < d + 4 * usize_of_int (offset_from e d)
    · show (if d ≤ a ∧ a < d + 4 * usize_of_int (offset_from e d) then
          mem' (s + (a - d)) else mem' a) = mem' a
      rw [if_pos hin, hm]
      show (if d ≤ s + (a - d) ∧
          s + (a - d) < d + 4 * usize_of_int (offset_from e d) then
          mem (s + (s + (a - d) - d)) else mem (s + (a - d))) =
        (if d ≤ a ∧ a < d + 4 * usize_of_int (offset_from e d) then
          mem (s + (a - d)) else mem a)
      rw [hlen] at hin ⊢
      rw [if_neg (by omega), if_pos (by omega)]
    · show (if d ≤ a ∧ a < d + 4 * usize_of_int (offset_from e d) then
          mem' (s + (a - d)) else mem' a) = mem' a
      rw [if_neg hin]
  have h2 := section_init_run_congr hrun mem'
  rw [hcopy] at h2
  exact h2

/-- C10 witness: on the concrete region (dst = 0, end = 4, src = 8) a
second run of `section_init` returns the memory the first run produced,
unchanged. -/
theorem section_init_idempotent_witness :
    section_init false 0 4 8 (copy_nonoverlapping 8 0 1 (fun a => a)) =
      some (copy_nonoverlapping 8 0 1 (fun a => a)) :=
  section_init_idempotent false 0 4 8 (fun a => a)
    (copy_nonoverlapping 8 0 1 (fun a => a)) (by decide) (by decide)
    (by decide) (by decide) (by decide) (by decide) rfl

/-- C3: the aggregator runs the per-region initializers exactly in listed
order, and the order is observable: for two regions `A` and `B` of equal
byte length `L` where `B`'s source range coincides with `A`'s destination
range (symbol `__siB` resolves to `A`'s destination start `da`), `B`'s
destination ends up holding the value `A` wrote when the list is
`[A, B]`, and does not when the list is `[B, A]` (given the value `A`
writes differs from what `A`'s destination held before). -/
theorem aggregator_order_dependence (da sa db L i : Nat) (env : SymEnv)
    (mem memAB memBA : Nat → Nat)
    (h4 : 4 ∣ L) (hi : i < L)
    (hbA : da + L < 2 ^ 32) (hbB : db + L < 2 ^ 32)
    (henv1 : env "__sA" = da) (henv2 : env "__eA" = da + L)
    (henv3 : env "__siA" = sa)
    (henv4 : env "__sB" = db) (henv5 : env "__eB" = db + L)
    (henv6 : env "__siB" = da)
    (hdisjA : da + L ≤ sa ∨ sa + L ≤ da)
    (hdisjB : db + L ≤ da ∨ da + L ≤ db)
    (hdiff : mem (sa + i) ≠ mem (da + i))
    (hAB : init_sections_with_prefixes false env
        [("A", default_convention), ("B", default_convention)] mem
        = some memAB)
    (hBA : init_sections_with_prefixes false env
        [("B", default_convention), ("A", default_convention)] mem
        = some memBA) :
    memAB (db + i) = mem (sa + i) ∧ memBA (db + i) ≠ mem (sa + i) := by
  have hmul : 4 * (L / 4) = L := Nat.mul_div_cancel' h4
  have hlenA : usize_of_int (offset_from (da + L) da) = L / 4 := by
    have := usize_len_eq (Nat.le_add_right da L) hbA
    rwa [Nat.add_sub_cancel_left] at this
  have hlenB : usize_of_int (offset_from (db + L) db) = L / 4 := by
    have := usize_len_eq (Nat.le_add_right db L) hbB
    rwa [Nat.add_sub_cancel_left] at this
  have eA : ∀ m : Nat → Nat,
      section_init_with_prefixes false env "A" default_convention m
        = some (copy_nonoverlapping sa da (L / 4) m) := by
    intro m
    unfold section_init_with_prefixes
    rw [show default_convention.beg ++ "A" = "__sA" from rfl,
      show default_convention.end_ ++ "A" = "__eA" from rfl,
      show default_convention.src ++ "A" = "__siA" from rfl,
      henv1, henv2, henv3, section_init_false_eq, hlenA]
  have eB : ∀ m : Nat → Nat,
      section_init_with_prefixes false env "B" default_convention m
        = some (copy_nonoverlapping da db (L / 4) m) := by
    intro m
    unfold section_init_with_prefixes
    rw [show default_convention.beg ++ "B" = "__sB" from rfl,
      show default_convention.end_ ++ "B" = "__eB" from rfl,
      show default_convention.src ++ "B" = "__siB" from rfl,
      henv4, henv5, henv6, section_init_false_eq, hlenB]
  rw [show init_sections_with_prefixes false env
      [("A", default_convention), ("B", default_convention)] mem
      = some (copy_nonoverlapping da db (L / 4)
          (copy_nonoverlapping sa da (L / 4) mem)) by
    simp only [init_sections_with_prefixes, eA, eB]] at hAB
  rw [show init_sections_with_prefixes false env
      [("B", default_convention), ("A", default_convention)] mem
      = some (copy_nonoverlapping sa da (L / 4)
          (copy_nonoverlapping da db (L / 4) mem)) by
    simp only [init_sections_with_prefixes, eA, eB]] at hBA
  have hABm := Option.some_inj.mp hAB
  have hBAm := Option.some_inj.mp hBA
  subst hABm hBAm
  constructor
  · show (if db ≤ db + i ∧ db + i < db + 4 * (L / 4) then
        copy_nonoverlapping sa da (L / 4) mem (da + (db + i - db))
      else copy_nonoverlapping sa da (L / 4) mem (db + i)) = mem (sa + i)
    rw [if_pos (by omega), show da + (db + i - db) = da + i by omega]
    show (if da ≤ da + i ∧ da + i < da + 4 * (L / 4) then
        mem (sa + (da + i - da)) else mem (da + i)) = mem (sa + i)
    rw [if_pos (by omega), show sa + (da + i - da) = sa + i by omega]
  · show (if da ≤ db + i ∧ db + i < da + 4 * (L / 4) then
        copy_nonoverlapping da db (L / 4) mem (sa + (db + i - da))
      else copy_nonoverlapping da db (L / 4) mem (db + i)) ≠ mem (sa + i)
    rw [if_neg (by omega)]
    show (if db ≤ db + i ∧ db + i < db + 4 * (L / 4) then
        mem (da + (db + i - db)) else mem (db + i)) ≠ mem (sa + i)
    rw [if_pos (by omega), show da + (db + i - db) = da + i by omega]
    exact fun h => hdiff h.symm

/-- C3 witness: regions A (dst 0, end 4, src 8) and B (dst 16, end 20,
src = A's destination 0), of 4 bytes each, over the identity memory:
listed as `[A, B]`, B's destination byte 17 holds the value A wrote
(byte 9 of A's source); listed as `[B, A]`, it does not. -/
theorem aggregator_order_dependence_witness :
    copy_nonoverlapping 0 16 1 (copy_nonoverlapping 8 0 1 (fun a => a))
        (16 + 1) = (fun a => a) (8 + 1) ∧
      copy_nonoverlapping 8 0 1 (copy_nonoverlapping 0 16 1 (fun a => a))
        (16 + 1) ≠ (fun a => a) (8 + 1) :=
  aggregator_order_dependence 0 8 16 4 1
    (fun sym => if sym = "__sA" then 0 else if sym = "__eA" then 4
      else if sym = "__siA" then 8 else if sym = "__sB" then 16
      else if sym = "__eB" then 20 else 0)
    (fun a => a)
    (copy_nonoverlapping 0 16 1 (copy_nonoverlapping 8 0 1 (fun a => a)))
    (copy_nonoverlapping 8 0 1 (copy_nonoverlapping 0 16 1 (fun a => a)))
    (by decide) (by decide) (by decide) (by decide)
    (by decide) (by decide) (by decide) (by decide) (by decide) (by decide)
    (by decide) (by decide) (by decide) rfl rfl

/-- C7: `init_sections!` behaves exactly like
`init_sections_with_prefixes!` with every region name paired with the
default convention `(__s, __e, __si)` (first conjunct, by its expansion),
and both coincide with the spec's description of the shorthand — resolve
`__s ++ name`, `__e ++ name`, `__si ++ name` per region, in listed order
(second conjunct). -/
theorem init_sections_matches_spec_shorthand (asserts : Bool) (env : SymEnv)
    (names : List String) (mem : Nat → Nat) :
    init_sections asserts env names mem =
        init_sections_with_prefixes asserts env
          (names.map (fun n => (n, default_convention))) mem ∧
      init_sections asserts env names mem =
        init_sections_spec_shorthand asserts env names mem := by
  refine ⟨rfl, ?_⟩
  unfold init_sections
  induction names generalizing mem with
  | nil => rfl
  | cons n ns ih =>
    simp only [List.map, init_sections_with_prefixes,
      init_sections_spec_shorthand, section_init_with_prefixes]
    have hb : default_convention.beg ++ n = "__s" ++ n := rfl
    have he : default_convention.end_ ++ n = "__e" ++ n := rfl
    have hs : default_convention.src ++ n = "__si" ++ n := rfl
    rw [hb, he, hs]
    cases hrun : section_init asserts (env ("__s" ++ n)) (env ("__e" ++ n))
        (env ("__si" ++ n)) mem with
    | none => rfl
    | some m' => exact ih m'

end LinkerSections
